import Mathlib

/-!
Verification of the spell-checker application (`spell_checker_app.py`).

The development shallowly embeds the spell-analysis core of the program:

* tokenization of the text buffer (`re.finditer(r'\b\w+\b', content)` in
  `check_spelling`) as `tokenize`;
* the vocabulary store (the `SpellChecker` object: membership, frequency,
  session additions via `word_frequency.add`) as `Vocab`;
* the full-text scan (`check_spelling`) as `scan` / `check_spelling`,
  acting on an explicit widget/application state;
* the correction engine (`spell.candidates`, truncated to 7 in
  `show_suggestions`) as `suggest`;
* the suggestion context menu handler (`show_suggestions`) as
  `show_suggestions`.

Texts are lists of characters; offsets are character offsets, half-open
ranges, exactly as the Python `re.Match.start()/end()` offsets.
-/

/-- Word-constituent characters: the ASCII reading of the regex class
`\w` (letters, digits, underscore) used by the tokenizing regex
`\b\w+\b` in `check_spelling`. -/
def isWordChar (c : Char) : Bool :=
  c.isAlphanum || c == '_'

/-- Lower-casing a word, as Python `str.lower()` applied to a token
before the vocabulary lookup (`word.lower()`). -/
def lowerW (w : List Char) : List Char :=
  w.map Char.toLower

/-- A word occurrence produced by tokenization: raw substring plus its
half-open character-offset range in the full text. -/
structure Token where
  start : Nat
  stop : Nat
  word : List Char
deriving DecidableEq, Repr

/-- Splits a list into its longest word-character run ending prefix and the
remainder: `takeRun cs = (cs.takeWhile isWordChar, cs.dropWhile isWordChar)`,
written with primitive recursion so that it computes by `decide`. -/
def takeRun : List Char → List Char × List Char
  | [] => ([], [])
  | c :: cs =>
    if isWordChar c then ((c :: (takeRun cs).1), (takeRun cs).2)
    else ([], c :: cs)

/-- Fuelled tokenizer: emits, left to right, one `Token` per maximal run of
word characters, positions offset by `i`.  The fuel argument only makes the
recursion structural; `tokenize` below instantiates it with the length of
the list, which is always sufficient. -/
def tokenizeF : Nat → List Char → Nat → List Token
  | _, [], _ => []
  | 0, _ :: _, _ => []
  | f + 1, c :: cs, i =>
    if isWordChar c then
      Token.mk i (i + 1 + (takeRun cs).1.length) (c :: (takeRun cs).1) ::
        tokenizeF f (takeRun cs).2 (i + 1 + (takeRun cs).1.length)
    else
      tokenizeF f cs (i + 1)

/-- Tokenization of the full text: the embedding of
`re.finditer(r'\b\w+\b', content)` — every match of `\b\w+\b` is a maximal
run of word characters, reported with its start/end offsets. -/
def tokenize (cs : List Char) (i : Nat) : List Token :=
  tokenizeF cs.length cs i

/-- Vocabulary store, the state of the `SpellChecker` object.  Modelled from
the spec: the `spellchecker` library that implements it is an external
collaborator that is not part of the repository sources.  Per the spec, it
is a mapping from normalized (lower-cased) word to frequency count together
with the set of session additions. -/
structure Vocab where
  freq : List (List Char × Nat)
  additions : List (List Char)
deriving DecidableEq, Repr

/-- Modelled from the spec: `contains(word)` of the Vocabulary Store —
case-insensitive membership test (the storage key is lower-cased, the query
is lower-cased before lookup).  This is the test `check_spelling` performs
through `self.spell.unknown([word.lower()])`. -/
def Vocab.containsW (v : Vocab) (w : List Char) : Bool :=
  (v.freq.map Prod.fst).contains (lowerW w)

/-- Modelled from the spec: `frequency(word)` of the Vocabulary Store —
corpus frequency of the normalized word, `0` if absent. -/
def Vocab.frequencyW (v : Vocab) (w : List Char) : Nat :=
  match v.freq.find? (fun kf => kf.1 = lowerW w) with
  | some kf => kf.2
  | none => 0

/-- Frequency sentinel given to session additions.  Modelled from the spec:
session-added words get a fixed high frequency so that they are never
flagged. -/
def ADDED_FREQ : Nat := 1

/-- Modelled from the spec: `add(word)` of the Vocabulary Store — inserts
the normalized word into the session additions and the frequency mapping;
adding an already-known word is a no-op.  This is the state mutation behind
`self.spell.word_frequency.add(word.lower())` in `add_to_dict`. -/
def Vocab.addW (v : Vocab) (w : List Char) : Vocab :=
  if v.containsW w then v
  else Vocab.mk ((lowerW w, ADDED_FREQ) :: v.freq) (lowerW w :: v.additions)

/-- The scan of `check_spelling`, lines 84–99: tokenize the full text, and
for each token whose lower-cased form is absent from the vocabulary emit an
error span with the token's offsets in the original text. -/
def scan (v : Vocab) (cs : List Char) : List (Nat × Nat) :=
  ((tokenize cs 0).filter (fun t => !v.containsW t.word)).map
    (fun t => (t.start, t.stop))

/-- Fuelled Damerau–Levenshtein edit distance (insertions, deletions,
substitutions, adjacent transpositions).  The fuel argument only makes the
recursion structural; `dlev` below instantiates it with the sum of the
lengths, which is always sufficient (every recursive call shortens the
combined input by at least one while consuming one unit of fuel, and when
either list is empty no fuel is needed). -/
def dlevF : Nat → List Char → List Char → Nat
  | _, [], ys => ys.length
  | _, x :: xs, [] => (x :: xs).length
  | 0, _ :: _, _ :: _ => 0
  | f + 1, x :: xs, y :: ys =>
    let best :=
      if x = y then dlevF f xs ys
      else 1 + min (dlevF f xs (y :: ys)) (min (dlevF f (x :: xs) ys) (dlevF f xs ys))
    match xs, ys with
    | x2 :: xs2, y2 :: ys2 =>
      if x = y2 ∧ x2 = y then min best (1 + dlevF f xs2 ys2) else best
    | _, _ => best

/-- Modelled from the spec: the edit distance of the Correction Engine —
classic single/double-edit neighborhood distance counting insertions,
deletions, substitutions and transpositions, computed on normalized
forms.  The underlying algorithm lives in the external `spellchecker`
library (`Levenshtein distance`, per the comment at line 19 of the
source), not in the repository. -/
def dlev (xs ys : List Char) : Nat :=
  dlevF (xs.length + ys.length) xs ys

/-- Modelled from the spec: the edit-distance budget of the neighborhood
search (a classic single/double-edit neighborhood). -/
def EDIT_BUDGET : Nat := 2

/-- Ranking preorder on vocabulary entries for a given normalized query:
first by edit distance ascending, then by corpus frequency descending. -/
def rankLE (lw : List Char) (a b : List Char × Nat) : Prop :=
  dlev a.1 lw < dlev b.1 lw ∨ (dlev a.1 lw = dlev b.1 lw ∧ b.2 ≤ a.2)

instance (lw : List Char) : DecidableRel (rankLE lw) := fun a b => by
  unfold rankLE; infer_instance

/-- Modelled from the spec: `suggest(word, limit)` of the Correction
Engine — collect the vocabulary words within the edit-distance budget of
the normalized input, order them by edit distance ascending with ties
broken by corpus frequency descending, truncate to `limit`; if the
neighborhood search yields nothing, the result is empty.  In the source
this is `self.spell.candidates(word.lower())` truncated by
`suggestions[:7]` in `show_suggestions`; the engine itself lives in the
external `spellchecker` library, absent from the repository. -/
def suggest (v : Vocab) (w : List Char) (limit : Nat) : List (List Char) :=
  let lw := lowerW w
  let cands := v.freq.filter (fun kf => dlev kf.1 lw ≤ EDIT_BUDGET)
  ((List.insertionSort (rankLE lw) cands).map Prod.fst).take limit

/-- The text widget as the scan and the menu handler see it: its character
content (`self.text_widget.get("1.0", "end-1c")`) and the spans currently
carrying the `"misspelled"` tag. -/
structure Widget where
  chars : List Char
  tags : List (Nat × Nat)
deriving DecidableEq, Repr

/-- Step 1 of `check_spelling`: `tag_remove("misspelled", "1.0", "end")`
clears every misspelled tag and touches nothing else. -/
def tagRemoveAll (w : Widget) : Widget :=
  Widget.mk w.chars []

/-- Step 6 of `check_spelling`: `tag_add("misspelled", start, end)` marks
one span and touches nothing else. -/
def tagAdd (w : Widget) (s e : Nat) : Widget :=
  Widget.mk w.chars (w.tags ++ [(s, e)])

/-- The tagging loop of `check_spelling`: one `tag_add` per error span, in
scan order. -/
def applyErrors : Widget → List (Nat × Nat) → Widget
  | w, [] => w
  | w, (s, e) :: rest => applyErrors (tagAdd w s e) rest

/-- Application state: the text widget plus the vocabulary store held by
the `SpellCheckerApp` instance. -/
structure AppState where
  widget : Widget
  vocab : Vocab
deriving DecidableEq, Repr

/-- The `check_spelling` event handler: remove all misspelled tags, read
the full content, and tag every token whose lower-cased form is unknown to
the vocabulary.  The vocabulary itself is only read. -/
def check_spelling (st : AppState) : AppState :=
  let w0 := tagRemoveAll st.widget
  AppState.mk (applyErrors w0 (scan st.vocab w0.chars)) st.vocab

/-- Result of a right-click: either the context menu is not posted at all,
or it is posted carrying the given suggestion labels. -/
inductive Menu where
  | closed : Menu
  | posted : List (List Char) → Menu
deriving DecidableEq, Repr

/-- Tag query of `show_suggestions`, line 117–120: whether the clicked
character position carries the `"misspelled"` tag, i.e. lies inside one of
the currently tagged spans. -/
def taggedAt (w : Widget) (p : Nat) : Bool :=
  w.tags.any (fun se => decide (se.1 ≤ p) && decide (p < se.2))

/-- The word under the click, as Tk `wordstart`/`wordend` resolve it: the
token (maximal word-character run) whose span contains the position. -/
def wordAt (cs : List Char) (p : Nat) : List Char :=
  match (tokenize cs 0).find? (fun t => decide (t.start ≤ p) && decide (p < t.stop)) with
  | some t => t.word
  | none => []

/-- The `show_suggestions` event handler, guard included: only when the
clicked position carries the `"misspelled"` tag is the word under the
click resolved and are candidates requested (`spell.candidates`, top 7)
and the menu posted; otherwise nothing happens. -/
def show_suggestions (st : AppState) (p : Nat) : Menu :=
  if taggedAt st.widget p then
    Menu.posted (suggest st.vocab (wordAt st.widget.chars p) 7)
  else
    Menu.closed

/-- Position `k` of the text holds a word-constituent character. -/
def wordCharAt (cs : List Char) (k : Nat) : Prop :=
  ∃ c, cs[k]? = some c ∧ isWordChar c = true

/-- A maximal run of word characters: the positions in `[s, e)` all hold
word characters, and the run can be extended in neither direction. -/
def MaxRun (cs : List Char) (s e : Nat) : Prop :=
  s < e ∧ e ≤ cs.length ∧ (∀ k, s ≤ k → k < e → wordCharAt cs k) ∧
    (s = 0 ∨ ¬ wordCharAt cs (s - 1)) ∧ (e = cs.length ∨ ¬ wordCharAt cs e)

theorem wordCharAt_nil (k : Nat) : ¬ wordCharAt [] k := by
  rintro ⟨c, hc, -⟩
  simp at hc

theorem wordCharAt_cons_zero {c : Char} {cs : List Char} :
    wordCharAt (c :: cs) 0 ↔ isWordChar c = true := by
  constructor
  · rintro ⟨d, hd, hw⟩
    simp only [List.getElem?_cons_zero, Option.some.injEq] at hd
    exact hd ▸ hw
  · intro h
    exact ⟨c, by simp, h⟩

theorem wordCharAt_cons_succ {c : Char} {cs : List Char} {k : Nat} :
    wordCharAt (c :: cs) (k + 1) ↔ wordCharAt cs k := by
  unfold wordCharAt
  simp

theorem wordCharAt_lt_length {cs : List Char} {k : Nat}
    (h : wordCharAt cs k) : k < cs.length := by
  obtain ⟨c, hc, -⟩ := h
  exact (List.getElem?_eq_some.mp hc).1

theorem wordCharAt_append_right {p r : List Char} {k : Nat} :
    wordCharAt (p ++ r) (p.length + k) ↔ wordCharAt r k := by
  unfold wordCharAt
  rw [List.getElem?_append_right (by omega)]
  simp

theorem wordCharAt_append_left {p r : List Char} {k : Nat} (h : k < p.length) :
    wordCharAt (p ++ r) k ↔ wordCharAt p k := by
  unfold wordCharAt
  rw [List.getElem?_append_left h]

theorem wordCharAt_of_all {p : List Char} (hall : ∀ x ∈ p, isWordChar x = true)
    {k : Nat} (hk : k < p.length) : wordCharAt p k := by
  refine ⟨p[k], by simp, hall _ (List.getElem_mem hk)⟩

theorem MaxRun_nil {a b : Nat} : ¬ MaxRun [] a b := by
  rintro ⟨h1, h2, -, -, -⟩
  simp at h2
  omega

theorem takeRun_append (cs : List Char) : (takeRun cs).1 ++ (takeRun cs).2 = cs := by
  induction cs with
  | nil => rfl
  | cons c cs ih =>
    by_cases h : isWordChar c
    · simp [takeRun, h, ih]
    · simp [takeRun, h]

theorem takeRun_fst_all (cs : List Char) : ∀ x ∈ (takeRun cs).1, isWordChar x = true := by
  induction cs with
  | nil => intro x hx; simp [takeRun] at hx
  | cons c cs ih =>
    intro x hx
    by_cases h : isWordChar c
    · simp only [takeRun, if_pos h, List.mem_cons] at hx
      rcases hx with rfl | hx
      · exact h
      · exact ih x hx
    · simp [takeRun, if_neg h] at hx

theorem takeRun_snd_head (cs : List Char) :
    (takeRun cs).2 = [] ∨ ¬ wordCharAt (takeRun cs).2 0 := by
  induction cs with
  | nil => exact Or.inl rfl
  | cons c cs ih =>
    by_cases h : isWordChar c
    · simpa [takeRun, if_pos h] using ih
    · right
      simp only [takeRun, if_neg h]
      rw [wordCharAt_cons_zero]
      simp [h]

theorem takeRun_snd_length (cs : List Char) : (takeRun cs).2.length ≤ cs.length := by
  induction cs with
  | nil => simp [takeRun]
  | cons c cs ih =>
    by_cases h : isWordChar c
    · simp only [takeRun, if_pos h, List.length_cons]
      omega
    · simp [takeRun, if_neg h]

theorem MaxRun_cons_nonword_pos {c : Char} {cs : List Char} {a b : Nat}
    (hc : ¬ isWordChar c = true) (h : MaxRun (c :: cs) a b) : 1 ≤ a := by
  by_contra hlt
  obtain ⟨hab, -, hall, -, -⟩ := h
  have h0 : wordCharAt (c :: cs) 0 := hall 0 (by omega) (by omega)
  exact hc (wordCharAt_cons_zero.mp h0)

theorem MaxRun_cons_nonword {c : Char} {cs : List Char} {a b : Nat}
    (hc : ¬ isWordChar c = true) :
    MaxRun (c :: cs) (a + 1) (b + 1) ↔ MaxRun cs a b := by
  constructor
  · rintro ⟨hab, hb, hall, hlb, hrb⟩
    refine ⟨by omega, by simpa using hb, ?_, ?_, ?_⟩
    · intro k hk1 hk2
      exact wordCharAt_cons_succ.mp (hall (k + 1) (by omega) (by omega))
    · rcases Nat.eq_zero_or_pos a with rfl | ha
      · exact Or.inl rfl
      · rcases hlb with h | h
        · omega
        · refine Or.inr fun hw => h ?_
          have ha1 : a + 1 - 1 = (a - 1) + 1 := by omega
          rw [ha1, wordCharAt_cons_succ]
          exact hw
    · rcases hrb with h | h
      · left
        simpa using h
      · exact Or.inr fun hw => h (wordCharAt_cons_succ.mpr hw)
  · rintro ⟨hab, hb, hall, hlb, hrb⟩
    refine ⟨by omega, by simpa using Nat.succ_le_succ hb, ?_, ?_, ?_⟩
    · intro k hk1 hk2
      have : k = (k - 1) + 1 := by omega
      rw [this, wordCharAt_cons_succ]
      exact hall (k - 1) (by omega) (by omega)
    · rcases hlb with rfl | h
      · exact Or.inr (by simpa [wordCharAt_cons_zero] using hc)
      · refine Or.inr fun hw => ?_
        have ha : 1 ≤ a := by
          by_contra h0
          have : a = 0 := by omega
          subst this
          exact hc (by simpa [wordCharAt_cons_zero] using hw)
        have : a + 1 - 1 = (a - 1) + 1 := by omega
        rw [this, wordCharAt_cons_succ] at hw
        exact h (by simpa [show a - 1 = a - 1 from rfl] using hw)
    · rcases hrb with rfl | h
      · exact Or.inl (by simp)
      · exact Or.inr fun hw => h (wordCharAt_cons_succ.mp hw)

theorem MaxRun_run_head {p r : List Char} (hp : p ≠ [])
    (hall : ∀ x ∈ p, isWordChar x = true) (hr : r = [] ∨ ¬ wordCharAt r 0) :
    MaxRun (p ++ r) 0 p.length := by
  have hplen : 0 < p.length := List.length_pos.mpr hp
  refine ⟨hplen, by simp, ?_, Or.inl rfl, ?_⟩
  · intro k hk1 hk2
    exact (wordCharAt_append_left hk2).mpr (wordCharAt_of_all hall hk2)
  · rcases hr with rfl | hr
    · left
      simp
    · refine Or.inr fun hw => hr ?_
      have : p.length = p.length + 0 := by omega
      rw [this, wordCharAt_append_right] at hw
      exact hw

theorem MaxRun_append_shift {p r : List Char} {a b : Nat} (hp : p ≠ [])
    (hall : ∀ x ∈ p, isWordChar x = true) (hr : r = [] ∨ ¬ wordCharAt r 0) :
    MaxRun (p ++ r) (p.length + a) (p.length + b) ↔ MaxRun r a b := by
  have hplen : 0 < p.length := List.length_pos.mpr hp
  constructor
  · rintro ⟨hab, hb, hall2, hlb, hrb⟩
    have hbr : b ≤ r.length := by
      have := hb
      simp only [List.length_append] at this
      omega
    rcases Nat.eq_zero_or_pos a with rfl | ha
    · -- the run would extend left into the all-word block: impossible
      exfalso
      rcases hlb with h | h
      · omega
      · have hpos : p.length + 0 - 1 < p.length := by omega
        exact h ((wordCharAt_append_left hpos).mpr
          (wordCharAt_of_all hall hpos))
    · refine ⟨by omega, hbr, ?_, ?_, ?_⟩
      · intro k hk1 hk2
        have hk : p.length + k = p.length + k := rfl
        have := hall2 (p.length + k) (by omega) (by omega)
        exact wordCharAt_append_right.mp this
      · refine Or.inr fun hw => ?_
        rcases hlb with h | h
        · omega
        · have : p.length + a - 1 = p.length + (a - 1) := by omega
          rw [this, wordCharAt_append_right] at h
          exact h hw
      · rcases hrb with h | h
        · left
          simp only [List.length_append] at h
          omega
        · rw [wordCharAt_append_right] at h
          exact Or.inr h
  · rintro ⟨hab, hb, hall2, hlb, hrb⟩
    have ha : 1 ≤ a := by
      by_contra h0
      have ha0 : a = 0 := by omega
      subst ha0
      have hw0 : wordCharAt r 0 := hall2 0 (by omega) (by omega)
      rcases hr with rfl | hr
      · exact absurd (wordCharAt_lt_length hw0) (by simp)
      · exact hr hw0
    refine ⟨by omega, by simp only [List.length_append]; omega, ?_, ?_, ?_⟩
    · intro k hk1 hk2
      have hk : k = p.length + (k - p.length) := by omega
      rw [hk, wordCharAt_append_right]
      exact hall2 (k - p.length) (by omega) (by omega)
    · refine Or.inr fun hw => ?_
      have : p.length + a - 1 = p.length + (a - 1) := by omega
      rw [this, wordCharAt_append_right] at hw
      rcases hlb with h | h
      · omega
      · exact h hw
    · rcases hrb with rfl | h
      · left
        simp
      · refine Or.inr fun hw => ?_
        rw [wordCharAt_append_right] at hw
        exact h hw

theorem MaxRun_append_cases {p r : List Char} {s e : Nat} (hp : p ≠ [])
    (hall : ∀ x ∈ p, isWordChar x = true) (hr : r = [] ∨ ¬ wordCharAt r 0)
    (h : MaxRun (p ++ r) s e) :
    (s = 0 ∧ e = p.length) ∨
      (∃ a b, s = p.length + a ∧ e = p.length + b ∧ 1 ≤ a) := by
  have hplen : 0 < p.length := List.length_pos.mpr hp
  obtain ⟨hse, he, hall2, hlb, hrb⟩ := h
  rcases Nat.eq_zero_or_pos s with rfl | hs
  · left
    refine ⟨rfl, ?_⟩
    by_contra hne
    rcases Nat.lt_or_ge e p.length with hlt | hge
    · -- the run stops inside the all-word block: impossible
      rcases hrb with h | h
      · simp only [List.length_append] at h
        omega
      · exact h ((wordCharAt_append_left hlt).mpr (wordCharAt_of_all hall hlt))
    · have hgt : p.length < e := by omega
      have hw : wordCharAt (p ++ r) p.length := hall2 p.length (by omega) hgt
      have : p.length = p.length + 0 := by omega
      rw [this, wordCharAt_append_right] at hw
      rcases hr with rfl | hnr
      · exact absurd (wordCharAt_lt_length hw) (by simp)
      · exact hnr hw
  · right
    have hsp : p.length < s := by
      by_contra hle
      have hs1 : s - 1 < p.length := by omega
      rcases hlb with h | h
      · omega
      · exact h ((wordCharAt_append_left hs1).mpr (wordCharAt_of_all hall hs1))
    exact ⟨s - p.length, e - p.length, by omega, by omega, by omega⟩

theorem drop_append_left_length {α : Type} (p r : List α) (a : Nat) :
    (p ++ r).drop (p.length + a) = r.drop a := by
  rw [← List.drop_drop, List.drop_left]

theorem mem_tokenizeF_iff (f : Nat) :
    ∀ (cs : List Char) (i : Nat), cs.length ≤ f → ∀ (s e : Nat) (w : List Char),
      (Token.mk s e w ∈ tokenizeF f cs i ↔
        ∃ a b, s = i + a ∧ e = i + b ∧ MaxRun cs a b ∧
          w = (cs.drop a).take (b - a)) := by
  induction f with
  | zero =>
    intro cs i hlen s e w
    have hnil : cs = [] := List.eq_nil_of_length_eq_zero (Nat.le_zero.mp hlen)
    subst hnil
    simp only [tokenizeF, List.not_mem_nil, false_iff]
    rintro ⟨a, b, -, -, hmr, -⟩
    exact MaxRun_nil hmr
  | succ f ih =>
    intro cs i hlen s e w
    cases cs with
    | nil =>
      simp only [tokenizeF, List.not_mem_nil, false_iff]
      rintro ⟨a, b, -, -, hmr, -⟩
      exact MaxRun_nil hmr
    | cons c cs' =>
      by_cases hc : isWordChar c = true
      · -- head is a word character: the head token covers the run
        have hw0all := takeRun_fst_all cs'
        have hrhead := takeRun_snd_head cs'
        have hrlen' : (takeRun cs').2.length ≤ f :=
          le_trans (takeRun_snd_length cs') (by simpa using hlen)
        have hsplit := takeRun_append cs'
        simp only [tokenizeF, if_pos hc, List.mem_cons]
        rw [ih (takeRun cs').2 (i + 1 + (takeRun cs').1.length) hrlen']
        set w₀ := (takeRun cs').1 with hw0
        set r := (takeRun cs').2 with hrr
        have hcc : c :: cs' = (c :: w₀) ++ r := by
          rw [List.cons_append, hsplit]
        have hallp : ∀ x ∈ c :: w₀, isWordChar x = true := by
          intro x hx
          rcases List.mem_cons.mp hx with rfl | hx
          · exact hc
          · exact hw0all x hx
        have hpne : (c :: w₀) ≠ [] := by simp
        constructor
        · rintro (heq | ⟨a, b, rfl, rfl, hmr, rfl⟩)
          · rw [Token.mk.injEq] at heq
            obtain ⟨rfl, rfl, rfl⟩ := heq
            refine ⟨0, (c :: w₀).length, by omega,
              by simp only [List.length_cons]; omega, ?_, ?_⟩
            · rw [hcc]
              exact MaxRun_run_head hpne hallp hrhead
            · rw [hcc, List.drop_zero, Nat.sub_zero, List.take_left]
          · refine ⟨(c :: w₀).length + a, (c :: w₀).length + b,
              by simp only [List.length_cons]; omega,
              by simp only [List.length_cons]; omega, ?_, ?_⟩
            · rw [hcc]
              exact (MaxRun_append_shift hpne hallp hrhead).mpr hmr
            · rw [hcc, drop_append_left_length]
              congr 1
              omega
        · rintro ⟨a, b, rfl, rfl, hmr, rfl⟩
          rw [hcc] at hmr
          rcases MaxRun_append_cases hpne hallp hrhead hmr with ⟨rfl, rfl⟩ |
            ⟨a', b', rfl, rfl, ha'⟩
          · left
            rw [Token.mk.injEq]
            refine ⟨by omega, by simp only [List.length_cons]; omega, ?_⟩
            rw [hcc, List.drop_zero, Nat.sub_zero, List.take_left]
          · right
            refine ⟨a', b', by simp only [List.length_cons]; omega,
              by simp only [List.length_cons]; omega, ?_, ?_⟩
            · exact (MaxRun_append_shift hpne hallp hrhead).mp hmr
            · rw [hcc, drop_append_left_length]
              congr 1
              omega
      · -- head is not a word character: skip it
        simp only [tokenizeF, if_neg hc]
        rw [ih cs' (i + 1) (by simpa using hlen)]
        constructor
        · rintro ⟨a, b, rfl, rfl, hmr, rfl⟩
          refine ⟨a + 1, b + 1, by omega, by omega,
            (MaxRun_cons_nonword hc).mpr hmr, ?_⟩
          rw [List.drop_succ_cons]
          congr 1
          omega
        · rintro ⟨a, b, rfl, rfl, hmr, rfl⟩
          have ha := MaxRun_cons_nonword_pos hc hmr
          have hab : a < b := hmr.1
          obtain ⟨a', rfl⟩ : ∃ a', a = a' + 1 := ⟨a - 1, by omega⟩
          obtain ⟨b', rfl⟩ : ∃ b', b = b' + 1 := ⟨b - 1, by omega⟩
          refine ⟨a', b', by omega, by omega,
            (MaxRun_cons_nonword hc).mp hmr, ?_⟩
          rw [List.drop_succ_cons]
          congr 1
          omega

theorem mem_tokenize_iff (cs : List Char) (s e : Nat) (w : List Char) :
    Token.mk s e w ∈ tokenize cs 0 ↔
      MaxRun cs s e ∧ w = (cs.drop s).take (e - s) := by
  unfold tokenize
  rw [mem_tokenizeF_iff cs.length cs 0 le_rfl]
  constructor
  · rintro ⟨a, b, rfl, rfl, hmr, rfl⟩
    simp only [Nat.zero_add]
    exact ⟨hmr, trivial⟩
  · rintro ⟨hmr, rfl⟩
    exact ⟨s, e, by omega, by omega, hmr, rfl⟩

theorem tokenizeF_word_all (f : Nat) :
    ∀ (cs : List Char) (i : Nat), ∀ t ∈ tokenizeF f cs i,
      ∀ x ∈ t.word, isWordChar x = true := by
  induction f with
  | zero =>
    intro cs i t ht
    cases cs <;> simp [tokenizeF] at ht
  | succ f ih =>
    intro cs i t ht
    cases cs with
    | nil => simp [tokenizeF] at ht
    | cons c cs' =>
      by_cases hc : isWordChar c = true
      · simp only [tokenizeF, if_pos hc, List.mem_cons] at ht
        rcases ht with rfl | ht
        · intro x hx
          rcases List.mem_cons.mp hx with rfl | hx
          · exact hc
          · exact takeRun_fst_all cs' x hx
        · exact ih _ _ t ht
      · simp only [tokenizeF, if_neg hc] at ht
        exact ih _ _ t ht

theorem tokenizeF_start_ge (f : Nat) :
    ∀ (cs : List Char) (i : Nat), ∀ t ∈ tokenizeF f cs i, i ≤ t.start := by
  induction f with
  | zero =>
    intro cs i t ht
    cases cs <;> simp [tokenizeF] at ht
  | succ f ih =>
    intro cs i t ht
    cases cs with
    | nil => simp [tokenizeF] at ht
    | cons c cs' =>
      by_cases hc : isWordChar c = true
      · simp only [tokenizeF, if_pos hc, List.mem_cons] at ht
        rcases ht with rfl | ht
        · exact le_rfl
        · have := ih _ _ t ht
          omega
      · simp only [tokenizeF, if_neg hc] at ht
        have := ih _ _ t ht
        omega

theorem tokenizeF_pairwise (f : Nat) :
    ∀ (cs : List Char) (i : Nat),
      (tokenizeF f cs i).Pairwise (fun t u => t.stop ≤ u.start) := by
  induction f with
  | zero =>
    intro cs i
    cases cs <;> simp [tokenizeF]
  | succ f ih =>
    intro cs i
    cases cs with
    | nil => simp [tokenizeF]
    | cons c cs' =>
      by_cases hc : isWordChar c = true
      · simp only [tokenizeF, if_pos hc]
        refine List.Pairwise.cons ?_ (ih _ _)
        intro u hu
        exact tokenizeF_start_ge f _ _ u hu
      · simp only [tokenizeF, if_neg hc]
        exact ih _ _

theorem tokenize_start_lt_stop {cs : List Char} {t : Token}
    (ht : t ∈ tokenize cs 0) : t.start < t.stop := by
  rcases t with ⟨s, e, w⟩
  rw [mem_tokenize_iff] at ht
  exact ht.1.1

theorem tokenize_word_eq {cs : List Char} {s e : Nat} {w w' : List Char}
    (h : Token.mk s e w ∈ tokenize cs 0) (h' : Token.mk s e w' ∈ tokenize cs 0) :
    w = w' := by
  rw [mem_tokenize_iff] at h h'
  rw [h.2, h'.2]

theorem tokenize_containing_unique {cs : List Char} {t u : Token} {p : Nat}
    (ht : t ∈ tokenize cs 0) (hu : u ∈ tokenize cs 0)
    (htp1 : t.start ≤ p) (htp2 : p < t.stop)
    (hup1 : u.start ≤ p) (hup2 : p < u.stop) : t = u := by
  by_contra hne
  have hpw : (tokenize cs 0).Pairwise
      (fun a b => a.stop ≤ b.start ∨ b.stop ≤ a.start) :=
    (tokenizeF_pairwise cs.length cs 0).imp (fun h => Or.inl h)
  have hsymm : Symmetric (fun a b : Token => a.stop ≤ b.start ∨ b.stop ≤ a.start) :=
    fun a b h => h.symm
  have := hpw.forall hsymm ht hu hne
  omega

theorem mem_scan_iff (v : Vocab) (cs : List Char) (s e : Nat) :
    (s, e) ∈ scan v cs ↔
      ∃ w, Token.mk s e w ∈ tokenize cs 0 ∧ v.containsW w = false := by
  unfold scan
  simp only [List.mem_map, List.mem_filter]
  constructor
  · rintro ⟨t, ⟨ht, hcont⟩, heq⟩
    rcases t with ⟨ts, te, tw⟩
    simp only [Prod.mk.injEq] at heq
    obtain ⟨rfl, rfl⟩ := heq
    exact ⟨tw, ht, by simpa using hcont⟩
  · rintro ⟨w, ht, hcont⟩
    exact ⟨Token.mk s e w, ⟨ht, by simp [hcont]⟩, rfl⟩

theorem scan_sorted (v : Vocab) (cs : List Char) :
    (scan v cs).Pairwise (fun p q => p.1 < q.1) := by
  unfold scan
  rw [List.pairwise_map]
  have h0 : (tokenize cs 0).Pairwise (fun t u => t.stop ≤ u.start) :=
    tokenizeF_pairwise cs.length cs 0
  have h1 : (List.filter (fun t => !v.containsW t.word) (tokenize cs 0)).Pairwise
      (fun t u => t.stop ≤ u.start) :=
    List.Pairwise.sublist (List.filter_sublist (tokenize cs 0)) h0
  refine List.Pairwise.imp_of_mem ?_ h1
  intro t u htm hum h
  have := tokenize_start_lt_stop (List.mem_of_mem_filter htm)
  omega

theorem containsW_addW_of_lower {v : Vocab} {wd u : List Char}
    (h : lowerW u = lowerW wd) : (v.addW wd).containsW u = true := by
  unfold Vocab.addW
  by_cases hc : v.containsW wd = true
  · rw [if_pos hc]
    unfold Vocab.containsW at hc ⊢
    rw [h]
    exact hc
  · rw [if_neg hc]
    unfold Vocab.containsW
    simp [h]

theorem find?_key_of_nodup :
    ∀ (l : List (List Char × Nat)) (k : List Char) (n : Nat),
      (l.map Prod.fst).Nodup → (k, n) ∈ l →
      l.find? (fun kf => kf.1 = k) = some (k, n) := by
  intro l
  induction l with
  | nil => intro k n _ hm; simp at hm
  | cons kf l ih =>
    intro k n hnd hm
    rcases List.mem_cons.mp hm with rfl | hm
    · rw [List.find?_cons_of_pos _ (by simp)]
    · have hk : kf.1 ≠ k := by
        intro hk
        have : k ∈ l.map Prod.fst := List.mem_map.mpr ⟨(k, n), hm, rfl⟩
        rw [List.map_cons, List.nodup_cons] at hnd
        exact hnd.1 (hk ▸ this)
      rw [List.find?_cons_of_neg _ (by simpa using hk)]
      exact ih k n (by rw [List.map_cons, List.nodup_cons] at hnd; exact hnd.2) hm

theorem frequencyW_of_mem {v : Vocab} {k : List Char} {n : Nat}
    (hnd : (v.freq.map Prod.fst).Nodup)
    (hlc : ∀ x ∈ v.freq.map Prod.fst, lowerW x = x)
    (hm : (k, n) ∈ v.freq) : v.frequencyW k = n := by
  unfold Vocab.frequencyW
  have hk : lowerW k = k := hlc k (List.mem_map.mpr ⟨(k, n), hm, rfl⟩)
  rw [hk, find?_key_of_nodup v.freq k n hnd hm]

theorem applyErrors_chars : ∀ (l : List (Nat × Nat)) (w : Widget),
    (applyErrors w l).chars = w.chars := by
  intro l
  induction l with
  | nil => intro w; rfl
  | cons se l ih =>
    intro w
    rcases se with ⟨s, e⟩
    rw [applyErrors, ih]
    rfl

theorem applyErrors_tags : ∀ (l : List (Nat × Nat)) (w : Widget),
    (applyErrors w l).tags = w.tags ++ l := by
  intro l
  induction l with
  | nil => intro w; simp [applyErrors]
  | cons se l ih =>
    intro w
    rcases se with ⟨s, e⟩
    rw [applyErrors, ih]
    simp [tagAdd]

theorem check_spelling_chars (st : AppState) :
    (check_spelling st).widget.chars = st.widget.chars := by
  unfold check_spelling
  rw [applyErrors_chars]
  rfl

theorem check_spelling_vocab (st : AppState) :
    (check_spelling st).vocab = st.vocab := rfl

theorem check_spelling_tags (st : AppState) :
    (check_spelling st).widget.tags = scan st.vocab st.widget.chars := by
  unfold check_spelling
  rw [applyErrors_tags]
  rfl

theorem rankLE_trans (lw : List Char) :
    ∀ a b c, rankLE lw a b → rankLE lw b c → rankLE lw a c := by
  unfold rankLE
  intro a b c h1 h2
  omega

theorem rankLE_total (lw : List Char) : ∀ a b, rankLE lw a b ∨ rankLE lw b a := by
  unfold rankLE
  intro a b
  omega

-- Spec §8 scenario 1: vocabulary {hello, world}; both words of
-- "helo wrold" are flagged, with their original-text offsets.
example :
    scan (Vocab.mk [("hello".toList, 100), ("world".toList, 80)] [])
        "helo wrold".toList = [(0, 4), (5, 10)] := by decide

-- Spec §8 scenario 4: the empty text yields no error spans.
example : scan (Vocab.mk [] []) "".toList = [] := by decide

-- Spec §8 scenario 5: punctuation is excluded from tokens, so
-- "hello, world!" has no errors against {hello, world}.
example :
    scan (Vocab.mk [("hello".toList, 100), ("world".toList, 80)] [])
        "hello, world!".toList = [] := by decide

-- Spec §8 scenario 3: after add("helo"), only "wrold" remains flagged.
example :
    scan ((Vocab.mk [("hello".toList, 100), ("world".toList, 80)] []).addW
        "helo".toList) "helo wrold".toList = [(5, 10)] := by decide

theorem containsW_eq_false_iff (v : Vocab) (w : List Char) :
    v.containsW w = false ↔ lowerW w ∉ v.freq.map Prod.fst := by
  unfold Vocab.containsW
  rw [← Bool.not_eq_true]
  exact not_congr List.elem_iff

/-- Claim C1: for every unknown word with several correction candidates,
the sequence returned by the suggestion operation is ordered by edit
distance ascending (non-decreasing), with ties broken by corpus frequency
descending, before truncation to the limit.  (Under the spec's Vocabulary
Store invariants: keys are distinct and stored lower-cased.) -/
theorem C1_suggestion_order (v : Vocab) (w : List Char) (limit : Nat)
    (hnd : (v.freq.map Prod.fst).Nodup)
    (hlc : ∀ x ∈ v.freq.map Prod.fst, lowerW x = x) :
    (suggest v w limit).Pairwise (fun a b =>
      dlev a (lowerW w) < dlev b (lowerW w) ∨
        (dlev a (lowerW w) = dlev b (lowerW w) ∧
          v.frequencyW b ≤ v.frequencyW a)) := by
  unfold suggest
  haveI : IsTotal (List Char × Nat) (rankLE (lowerW w)) := ⟨rankLE_total (lowerW w)⟩
  haveI : IsTrans (List Char × Nat) (rankLE (lowerW w)) := ⟨rankLE_trans (lowerW w)⟩
  have hsorted : (List.insertionSort (rankLE (lowerW w))
      (v.freq.filter (fun kf => dlev kf.1 (lowerW w) ≤ EDIT_BUDGET))).Pairwise
        (rankLE (lowerW w)) :=
    List.sorted_insertionSort (rankLE (lowerW w)) _
  refine List.Pairwise.sublist (List.take_sublist _ _) ?_
  rw [List.pairwise_map]
  refine List.Pairwise.imp_of_mem ?_ hsorted
  intro a b ha hb hr
  have haf : a ∈ v.freq :=
    List.mem_of_mem_filter ((List.mem_insertionSort _).mp ha)
  have hbf : b ∈ v.freq :=
    List.mem_of_mem_filter ((List.mem_insertionSort _).mp hb)
  have hfa : v.frequencyW a.1 = a.2 := frequencyW_of_mem hnd hlc haf
  have hfb : v.frequencyW b.1 = b.2 := frequencyW_of_mem hnd hlc hbf
  unfold rankLE at hr
  rw [hfa, hfb]
  exact hr

theorem C1_suggestion_order_witness :
    (((Vocab.mk [("hello".toList, 100), ("help".toList, 50), ("hell".toList, 3)]
        []).freq.map Prod.fst).Nodup ∧
      (∀ x ∈ (Vocab.mk [("hello".toList, 100), ("help".toList, 50),
        ("hell".toList, 3)] []).freq.map Prod.fst, lowerW x = x)) ∧
    (suggest (Vocab.mk [("hello".toList, 100), ("help".toList, 50),
        ("hell".toList, 3)] []) "helo".toList 7).Pairwise (fun a b =>
      dlev a (lowerW "helo".toList) < dlev b (lowerW "helo".toList) ∨
        (dlev a (lowerW "helo".toList) = dlev b (lowerW "helo".toList) ∧
          (Vocab.mk [("hello".toList, 100), ("help".toList, 50),
            ("hell".toList, 3)] []).frequencyW b ≤
          (Vocab.mk [("hello".toList, 100), ("help".toList, 50),
            ("hell".toList, 3)] []).frequencyW a)) :=
  ⟨⟨by decide, by decide⟩,
    C1_suggestion_order _ "helo".toList 7 (by decide) (by decide)⟩

/-- Claim C2: after a scan of a text, a span is in the produced error set
if and only if it is a token span of the original text whose lower-cased
word is absent from the vocabulary, and the spans are emitted in strictly
ascending order of start offset. -/
theorem C2_scan_spans (v : Vocab) (cs : List Char) :
    (∀ s e : Nat, ((s, e) ∈ scan v cs ↔
      ∃ w, Token.mk s e w ∈ tokenize cs 0 ∧ lowerW w ∉ v.freq.map Prod.fst)) ∧
    (scan v cs).Pairwise (fun p q => p.1 < q.1) := by
  constructor
  · intro s e
    rw [mem_scan_iff]
    constructor
    · rintro ⟨w, ht, hc⟩
      exact ⟨w, ht, (containsW_eq_false_iff v w).mp hc⟩
    · rintro ⟨w, ht, hc⟩
      exact ⟨w, ht, (containsW_eq_false_iff v w).mpr hc⟩
  · exact scan_sorted v cs

/-- Claim C3: for every unknown word that has no vocabulary word within
the edit-distance budget, the suggestion operation returns an empty
sequence — never a fallback of unrelated words (and, being a total
function, without raising an error). -/
theorem C3_no_candidates_empty (v : Vocab) (w : List Char) (limit : Nat)
    (h : ∀ kf ∈ v.freq, EDIT_BUDGET < dlev kf.1 (lowerW w)) :
    suggest v w limit = [] := by
  simp only [suggest]
  have hnil : v.freq.filter (fun kf => dlev kf.1 (lowerW w) ≤ EDIT_BUDGET) = [] := by
    rw [List.filter_eq_nil_iff]
    intro kf hkf
    have := h kf hkf
    simp only [decide_eq_true_eq]
    omega
  rw [hnil]
  simp

theorem C3_no_candidates_empty_witness :
    (∀ kf ∈ (Vocab.mk [("hello".toList, 100), ("world".toList, 80)] []).freq,
      EDIT_BUDGET < dlev kf.1 (lowerW "xqzvwk".toList)) ∧
    suggest (Vocab.mk [("hello".toList, 100), ("world".toList, 80)] [])
      "xqzvwk".toList 7 = [] :=
  ⟨by decide, C3_no_candidates_empty _ "xqzvwk".toList 7 (by decide)⟩

/-- Claim C4: a token consisting purely of digits (and likewise a
single-character token) is checked against the vocabulary exactly like any
other token during a scan: it is flagged as an error span precisely when
its lower-cased form is absent from the vocabulary. -/
theorem C4_numeric_tokens_checked (v : Vocab) (cs : List Char) (s e : Nat)
    (w : List Char) (ht : Token.mk s e w ∈ tokenize cs 0)
    (_hkind : w.all Char.isDigit = true ∨ w.length = 1) :
    ((s, e) ∈ scan v cs ↔ v.containsW w = false) := by
  constructor
  · intro hm
    obtain ⟨w', ht', hc'⟩ := (mem_scan_iff v cs s e).mp hm
    rwa [tokenize_word_eq ht ht']
  · intro hc
    exact (mem_scan_iff v cs s e).mpr ⟨w, ht, hc⟩

theorem C4_numeric_tokens_checked_witness :
    (Token.mk 0 3 "123".toList ∈ tokenize "123 hello".toList 0) ∧
    ("123".toList.all Char.isDigit = true) ∧
    ((0, 3) ∈ scan (Vocab.mk [("hello".toList, 10)] []) "123 hello".toList) :=
  ⟨by decide, by decide,
    (C4_numeric_tokens_checked (Vocab.mk [("hello".toList, 10)] [])
      "123 hello".toList 0 3 "123".toList (by decide)
      (Or.inl (by decide))).mpr (by decide)⟩

/-- Claim C5: the spans the scan tokenizes are exactly the maximal runs of
word-constituent characters (each token is a maximal run with its exact
substring, and conversely every maximal run is emitted); non-word
characters (punctuation, whitespace) are never part of any emitted token;
and the empty text yields zero tokens. -/
theorem C5_tokenization_maximal_runs :
    (∀ (cs : List Char) (s e : Nat) (w : List Char),
      Token.mk s e w ∈ tokenize cs 0 ↔
        MaxRun cs s e ∧ w = (cs.drop s).take (e - s)) ∧
    tokenize ([] : List Char) 0 = [] ∧
    (∀ cs : List Char, ∀ t ∈ tokenize cs 0, ∀ x ∈ t.word, isWordChar x = true) :=
  ⟨mem_tokenize_iff, rfl, fun cs => tokenizeF_word_all cs.length cs 0⟩

theorem addW_of_contains {v : Vocab} {w : List Char}
    (h : v.containsW w = true) : v.addW w = v := by
  simp [Vocab.addW, h]

/-- Claim C6: for every word and every text containing it, after the add
operation is performed on the word, a subsequent scan of that text never
flags any occurrence of the word (in any letter case) as an error span. -/
theorem C6_add_then_scan_never_flags (v : Vocab) (wd cs : List Char)
    (s e : Nat) (u : List Char) (ht : Token.mk s e u ∈ tokenize cs 0)
    (hcase : lowerW u = lowerW wd) : (s, e) ∉ scan (v.addW wd) cs := by
  intro hm
  obtain ⟨w', ht', hc'⟩ := (mem_scan_iff _ cs s e).mp hm
  have hw : w' = u := tokenize_word_eq ht' ht
  subst hw
  have htrue := containsW_addW_of_lower (v := v) hcase
  rw [hc'] at htrue
  simp at htrue

theorem C6_add_then_scan_never_flags_witness :
    (Token.mk 5 9 "HELO".toList ∈ tokenize "helo HELO".toList 0) ∧
    (lowerW "HELO".toList = lowerW "Helo".toList) ∧
    ((5, 9) ∉ scan ((Vocab.mk [] []).addW "Helo".toList) "helo HELO".toList) :=
  ⟨by decide, by decide,
    C6_add_then_scan_never_flags (Vocab.mk [] []) "Helo".toList
      "helo HELO".toList 5 9 "HELO".toList (by decide) (by decide)⟩

/-- Claim C7: the add operation is idempotent — performing add twice
leaves the vocabulary state identical to performing it once — and adding
an already-known word is a no-op (and, being total, never fails). -/
theorem C7_add_idempotent (v : Vocab) (w : List Char) :
    (v.addW w).addW w = v.addW w ∧ (v.containsW w = true → v.addW w = v) :=
  ⟨addW_of_contains (containsW_addW_of_lower rfl), fun h => addW_of_contains h⟩

theorem C7_add_idempotent_witness :
    ((Vocab.mk [("helo".toList, 5)] []).containsW "Helo".toList = true) ∧
    ((Vocab.mk [("helo".toList, 5)] []).addW "Helo".toList =
      Vocab.mk [("helo".toList, 5)] []) :=
  ⟨by decide,
    (C7_add_idempotent (Vocab.mk [("helo".toList, 5)] []) "Helo".toList).2
      (by decide)⟩

theorem check_spelling_iter_frame : ∀ (n : Nat) (st : AppState),
    ((check_spelling)^[n] st).widget.chars = st.widget.chars ∧
    ((check_spelling)^[n] st).vocab = st.vocab := by
  intro n
  induction n with
  | zero => intro st; exact ⟨rfl, rfl⟩
  | succ n ih =>
    intro st
    rw [Function.iterate_succ_apply]
    obtain ⟨h1, h2⟩ := ih (check_spelling st)
    exact ⟨by rw [h1, check_spelling_chars],
      by rw [h2, check_spelling_vocab]⟩

/-- Claim C8: the scan is deterministic and side-effect free on the
vocabulary — any positive number of scans of a fixed state yields the same
error-span sequence (the one computed from the original text and
vocabulary), and the vocabulary state is never changed. -/
theorem C8_scan_deterministic_pure (st : AppState) (n : Nat) (hn : 0 < n) :
    ((check_spelling)^[n] st).widget.tags = scan st.vocab st.widget.chars ∧
    ((check_spelling)^[n] st).vocab = st.vocab := by
  obtain ⟨m, rfl⟩ : ∃ m, n = m + 1 := ⟨n - 1, by omega⟩
  rw [Function.iterate_succ_apply']
  obtain ⟨h1, h2⟩ := check_spelling_iter_frame m st
  exact ⟨by rw [check_spelling_tags, h1, h2], by rw [check_spelling_vocab, h2]⟩

theorem C8_scan_deterministic_pure_witness :
    0 < 2 ∧
    (((check_spelling)^[2] (AppState.mk (Widget.mk "helo wrold".toList [])
        (Vocab.mk [("hello".toList, 100), ("world".toList, 80)] []))).widget.tags =
      scan (Vocab.mk [("hello".toList, 100), ("world".toList, 80)] [])
        "helo wrold".toList ∧
     ((check_spelling)^[2] (AppState.mk (Widget.mk "helo wrold".toList [])
        (Vocab.mk [("hello".toList, 100), ("world".toList, 80)] []))).vocab =
      Vocab.mk [("hello".toList, 100), ("world".toList, 80)] []) :=
  ⟨by decide,
    C8_scan_deterministic_pure (AppState.mk (Widget.mk "helo wrold".toList [])
      (Vocab.mk [("hello".toList, 100), ("world".toList, 80)] [])) 2 (by decide)⟩

/-- Claim C9: the scan never modifies the text buffer's content — after
`check_spelling` the character sequence of the widget is unchanged (only
the error tags are recomputed). -/
theorem C9_scan_preserves_text (st : AppState) :
    (check_spelling st).widget.chars = st.widget.chars :=
  check_spelling_chars st

/-- Claim C10: correction candidates are only requested for a position
inside a flagged error span — when the clicked position does not carry the
misspelled tag the handler does nothing, and in a post-scan state a tagged
position always holds a word that the vocabulary does not contain, so the
suggestion engine's precondition is established by the caller. -/
theorem C10_suggestions_only_on_tagged (st : AppState) (p : Nat)
    (hpost : st.widget.tags = scan st.vocab st.widget.chars) :
    (taggedAt st.widget p = false → show_suggestions st p = Menu.closed) ∧
    (taggedAt st.widget p = true →
      st.vocab.containsW (wordAt st.widget.chars p) = false) := by
  constructor
  · intro hf
    unfold show_suggestions
    rw [hf]
    simp
  · intro htag
    unfold taggedAt at htag
    rw [List.any_eq_true] at htag
    obtain ⟨se, hse, hp⟩ := htag
    rcases se with ⟨s, e⟩
    simp only [Bool.and_eq_true, decide_eq_true_eq] at hp
    rw [hpost] at hse
    obtain ⟨w, htk, hc⟩ := (mem_scan_iff _ _ s e).mp hse
    unfold wordAt
    cases hfind : (tokenize st.widget.chars 0).find?
        (fun t => decide (t.start ≤ p) && decide (p < t.stop)) with
    | none =>
      exfalso
      have hnone := List.find?_eq_none.mp hfind (Token.mk s e w) htk
      simp only [Bool.and_eq_true, decide_eq_true_eq] at hnone
      exact hnone ⟨hp.1, hp.2⟩
    | some t =>
      have htmem := List.mem_of_find?_eq_some hfind
      have htp := List.find?_some hfind
      simp only [Bool.and_eq_true, decide_eq_true_eq] at htp
      have hteq : t = Token.mk s e w :=
        tokenize_containing_unique htmem htk htp.1 htp.2 hp.1 hp.2
      rw [hteq]
      exact hc

theorem C10_suggestions_only_on_tagged_witness :
    (taggedAt (Widget.mk "qq".toList
        (scan (Vocab.mk [("hello".toList, 1)] []) "qq".toList)) 0 = true) ∧
    ((Vocab.mk [("hello".toList, 1)] []).containsW
      (wordAt "qq".toList 0) = false) :=
  ⟨by decide,
    (C10_suggestions_only_on_tagged
      (AppState.mk (Widget.mk "qq".toList
        (scan (Vocab.mk [("hello".toList, 1)] []) "qq".toList))
        (Vocab.mk [("hello".toList, 1)] [])) 0 rfl).2 (by decide)⟩
